import Mathlib

/-!
Verification of `tvidder.py` (TVidder: tweet video downloader CLI).

The file shallowly embeds the program:

* `extract_tweet_id` — the regex search of `TwitterDownloader.extract_tweet_id`
  (two patterns tried in order over all start positions, leftmost match wins),
  modelled as a direct matcher on `List Char`.
* `selectVideoUrl` — the media/variant selection of `download_video`
  (lines 82-101): the `includes.media` checks, the first video-typed entry,
  the `video/mp4` filter and Python's `max(..., key=...)` (first maximum wins).
* `writeBody` — the streaming write loop (lines 116-127): whole-body write when
  the content length is zero or absent, otherwise chunkwise writes with a
  progress update after each chunk.
* `download_video_body` / `download_video` / `mainExit` — the control flow of
  `download_video` and `main`, with external effects (directory creation, API
  request, HTTP fetch, file write) recorded as a trace and fallible externals
  supplied by an environment.
-/

/-! ### URL identifier extractor (`extract_tweet_id`, tvidder.py lines 37-48) -/

/-- ASCII reading of the regex class `\w` (letters, digits, underscore). -/
def isWordChar (c : Char) : Bool := c.isAlphanum || c == '_'

/-- The literal `twitter` of the host alternation `(?:twitter|x)`. -/
def twitterL : List Char := ['t', 'w', 'i', 't', 't', 'e', 'r']

/-- The literal `x` of the host alternation `(?:twitter|x)`. -/
def xL : List Char := ['x']

/-- The literal `.com/` following the host alternation. -/
def comSlash : List Char := ['.', 'c', 'o', 'm', '/']

/-- The literal `/status/` of the first pattern. -/
def statusSlash : List Char := ['/', 's', 't', 'a', 't', 'u', 's', '/']

/-- The literal `i/web/status/` of the second pattern (after `.com/`). -/
def iwebL : List Char := ['i', '/', 'w', 'e', 'b'] ++ statusSlash

/-- `twitter.com/` -/
def twitterCom : List Char := twitterL ++ comSlash

/-- `x.com/` -/
def xCom : List Char := xL ++ comSlash

/-- `twitter.com/i/web/status/` -/
def twitterIWeb : List Char := twitterL ++ comSlash ++ iwebL

/-- `x.com/i/web/status/` -/
def xIWeb : List Char := xL ++ comSlash ++ iwebL

/-- Match `(?:twitter|x)\.com/` at the start of `s`, returning the remainder.
The alternation tries `twitter` first, as the regex engine does; at a fixed
position at most one branch can match since the literals start differently. -/
def stripHost (s : List Char) : Option (List Char) :=
  if twitterCom.isPrefixOf s then some (s.drop twitterCom.length)
  else if xCom.isPrefixOf s then some (s.drop xCom.length)
  else none

/-- Match the pattern `(?:twitter|x)\.com/\w+/status/(\d+)` anchored at the
start of `s`, returning the capture group. Greedy `\w+` followed by the
non-word character `/` forces the maximal word run, and greedy `(\d+)` with
nothing after it captures the maximal digit run. -/
def matchAt1 (s : List Char) : Option (List Char) :=
  match stripHost s with
  | none => none
  | some rest =>
    let user := rest.takeWhile isWordChar
    let rest2 := rest.dropWhile isWordChar
    if user.isEmpty then none
    else if statusSlash.isPrefixOf rest2 then
      let rest3 := rest2.drop statusSlash.length
      let digits := rest3.takeWhile Char.isDigit
      if digits.isEmpty then none else some digits
    else none

/-- Match the pattern `(?:twitter|x)\.com/i/web/status/(\d+)` anchored at the
start of `s`, returning the capture group. -/
def matchAt2 (s : List Char) : Option (List Char) :=
  if twitterIWeb.isPrefixOf s then
    let digits := (s.drop twitterIWeb.length).takeWhile Char.isDigit
    if digits.isEmpty then none else some digits
  else if xIWeb.isPrefixOf s then
    let digits := (s.drop xIWeb.length).takeWhile Char.isDigit
    if digits.isEmpty then none else some digits
  else none

/-- `re.search` position scan: try the anchored matcher at every start
position from left to right, first success wins. -/
def searchAux (m : List Char → Option (List Char)) : List Char → Option (List Char)
  | [] => m []
  | c :: rest =>
    match m (c :: rest) with
    | some d => some d
    | none => searchAux m rest

/-- `TwitterDownloader.extract_tweet_id`: try pattern 1 over the whole string,
then pattern 2, returning the first capture group or `none`. -/
def extract_tweet_id (url : String) : Option String :=
  match searchAux matchAt1 url.data with
  | some d => some (String.mk d)
  | none =>
    match searchAux matchAt2 url.data with
    | some d => some (String.mk d)
    | none => none

/-! ### Metadata payload and variant selection (tvidder.py lines 82-101) -/

/-- One entry of a media object's `variants` list.  Fields read with
`dict.get` (`content_type`, `bit_rate`) and with indexing (`url`) are all
optional in the payload; a missing `url` raises `KeyError` at line 101. -/
structure Variant where
  content_type : Option String
  bit_rate : Option Nat
  url : Option String
deriving DecidableEq

/-- One entry of `includes.media`.  `m['type']` (line 87) raises `KeyError`
when absent; `'variants' not in video_media` (line 89) is an ordinary check. -/
structure Media where
  type : Option String
  variants : Option (List Variant)
deriving DecidableEq

/-- The `includes` object of the parsed API response. -/
structure Includes where
  media : Option (List Media)
deriving DecidableEq

/-- The parsed API response (the parts `download_video` reads). -/
structure TweetData where
  includes : Option Includes
deriving DecidableEq

/-- Outcomes of the selection steps: the three printed-and-return-False
errors, and `keyErr` for a raised `KeyError` (missing `type` at line 87 or
missing `url` at line 101) which the outer handler turns into failure. -/
inductive VErr where
  | noMedia
  | noVideo
  | noMp4
  | keyErr
deriving DecidableEq

/-- Python's `max(v :: vs, key=k)`: scan left to right, replace the current
best only on a strictly greater key, so the first maximal element wins. -/
def maxByFirst (k : Variant → Nat) : Variant → List Variant → Variant
  | v, [] => v
  | v, x :: rest => maxByFirst k (if k x > k v then x else v) rest

/-- The sort key `lambda x: x.get('bit_rate', 0)` (line 100). -/
def keyOf (v : Variant) : Nat := v.bit_rate.getD 0

/-- `next((m for m in media if m['type'] in ['video', 'animated_gif']), None)`
(line 87): first matching entry, `KeyError` if an inspected entry lacks
`type`, `none` when the list is exhausted. -/
def findVideoMedia : List Media → Except VErr (Option Media)
  | [] => .ok none
  | m :: rest =>
    match m.type with
    | none => .error .keyErr
    | some t =>
      if t = "video" ∨ t = "animated_gif" then .ok (some m)
      else findVideoMedia rest

/-- Lines 82-101 of `download_video`: check `includes.media`, find the first
video-typed media entry, require a `variants` field, filter to
`content_type == 'video/mp4'`, take the bit-rate maximum (first maximum on
ties), and read its `url`. -/
def selectVideoUrl (td : TweetData) : Except VErr String :=
  match td.includes with
  | none => .error .noMedia
  | some inc =>
    match inc.media with
    | none => .error .noMedia
    | some media =>
      match findVideoMedia media with
      | .error e => .error e
      | .ok none => .error .noVideo
      | .ok (some vm) =>
        match vm.variants with
        | none => .error .noVideo
        | some variants =>
          match variants.filter (fun v => v.content_type == some "video/mp4") with
          | [] => .error .noMp4
          | v :: vs =>
            match (maxByFirst keyOf v vs).url with
            | none => .error .keyErr
            | some u => .ok u

/-! ### Streaming write loop (tvidder.py lines 116-127) -/

/-- `int(response.headers.get('content-length', 0))` (line 117); the header,
when present and well formed, is a natural number. -/
def totalSizeOf (header : Option Nat) : Nat := header.getD 0

/-- One iteration of the download loop (lines 124-127): add the chunk length
to `downloaded`, append the chunk to the file, emit
`int(100 * downloaded / total_size)` (the `int()` truncation of the
nonnegative quotient is floor, i.e. `Nat` division). -/
def writeStep (total_size : Nat) (acc : Nat × List Nat × List Nat)
    (data : List Nat) : Nat × List Nat × List Nat :=
  let downloaded := acc.1 + data.length
  (downloaded, acc.2.1 ++ data, acc.2.2 ++ [100 * downloaded / total_size])

/-- The body of `with open(output_file, 'wb') as file:` (lines 119-127),
returning the bytes written to the file and the sequence of emitted progress
updates.  When `total_size == 0` the whole body is written at once and no
progress update is emitted; otherwise each chunk is appended immediately
with a progress update after it. -/
def writeBody (total_size : Nat) (content : List (List Nat)) : List Nat × List Nat :=
  if total_size = 0 then (content.flatten, [])
  else
    let r := content.foldl (writeStep total_size) (0, [], [])
    (r.2.1, r.2.2)

/-- Specification-side description of the progress sequence: the running
byte totals after each chunk, each mapped to `floor(100 * total / t)`. -/
def progressSeq (t : Nat) : Nat → List (List Nat) → List Nat
  | _, [] => []
  | dl, ch :: rest => (100 * (dl + ch.length) / t) :: progressSeq t (dl + ch.length) rest

/-! ### `download_video` control flow and `main` (tvidder.py lines 65-148) -/

/-- External effects performed by `download_video`, in order.  `mkdirp`
records a successful `Path(output_dir).mkdir(parents=True, exist_ok=True)`;
`apiGet` the metadata request; `httpGet` the streaming video request;
`fileWrite` the bytes written to the output file. -/
inductive Eff where
  | mkdirp (dir : String)
  | apiGet (id : String)
  | httpGet (url : String)
  | fileWrite (path : String) (bytes : List Nat)
deriving DecidableEq

/-- The process environment: the credential read at construction time and
oracles for every fallible external interaction.  An `Except.error` models a
raised exception at that call. -/
structure Env where
  bearer_token : Option String
  mkdir : String → Except String Unit
  api : String → Except String TweetData
  fetch : String → Except String (Option Nat × List (List Nat))
  openFile : String → Except String Unit
  now : String

/-- `download_video` without its outer `try/except`: `Except.error` is an
exception reaching line 132, `.ok b` a normal `return b`.  The second
component is the trace of performed external effects. -/
def download_video_body (env : Env) (url : String) (output_dir : String) :
    Except String Bool × List Eff :=
  match extract_tweet_id url with
  | none => (.ok false, [])
  | some tweet_id =>
    if tweet_id = "" then (.ok false, [])
    else
      match env.mkdir output_dir with
      | .error e => (.error e, [])
      | .ok _ =>
        match env.api tweet_id with
        | .error e => (.error e, [.mkdirp output_dir, .apiGet tweet_id])
        | .ok td =>
          let t2 : List Eff := [.mkdirp output_dir, .apiGet tweet_id]
          match selectVideoUrl td with
          | .error .keyErr => (.error "KeyError", t2)
          | .error _ => (.ok false, t2)
          | .ok video_url =>
            let output_file :=
              output_dir ++ "/twitter_video_" ++ tweet_id ++ "_" ++ env.now ++ ".mp4"
            match env.fetch video_url with
            | .error e => (.error e, t2 ++ [.httpGet video_url])
            | .ok (header, chunks) =>
              let t3 := t2 ++ [.httpGet video_url]
              match env.openFile output_file with
              | .error e => (.error e, t3)
              | .ok _ =>
                let r := writeBody (totalSizeOf header) chunks
                (.ok true, t3 ++ [.fileWrite output_file r.1])

/-- `download_video` (lines 65-134): the catch-all `except Exception`
converts any raised error into `return False`. -/
def download_video (env : Env) (url : String) (output_dir : String) :
    Bool × List Eff :=
  match download_video_body env url output_dir with
  | (.ok b, t) => (b, t)
  | (.error _, t) => (false, t)

/-- `main` (lines 136-148): constructing `TwitterDownloader` raises
`ValueError` on a falsy bearer token, caught in `main` with exit code 1;
otherwise the exit code reflects `download_video`'s boolean. -/
def mainExit (env : Env) (url : String) (output_dir : String) : Nat :=
  match env.bearer_token with
  | none => 1
  | some tok =>
    if tok = "" then 1
    else if (download_video env url output_dir).1 then 0 else 1

/-! ### Helper lemmas: position scan -/

theorem searchAux_eval {m : List Char → Option (List Char)} {s d}
    (h : m s = some d) : searchAux m s = some d := by
  cases s with
  | nil => simpa [searchAux] using h
  | cons c rest => simp [searchAux, h]

theorem searchAux_append {m : List Char → Option (List Char)} :
    ∀ (pre suf : List Char),
      (∀ q, q <:+ pre ++ suf → suf.length < q.length → m q = none) →
      searchAux m (pre ++ suf) = searchAux m suf := by
  intro pre
  induction pre with
  | nil => intro suf _; rfl
  | cons c pre' ih =>
    intro suf h
    have hwhole : m (c :: (pre' ++ suf)) = none := by
      apply h _ (List.suffix_refl _)
      simp
      omega
    calc searchAux m (c :: pre' ++ suf)
        = searchAux m (pre' ++ suf) := by simp [searchAux, hwhole]
      _ = searchAux m suf := by
          apply ih
          intro q hq hlen
          exact h q (hq.trans (List.suffix_cons c (pre' ++ suf))) hlen

theorem searchAux_none {m : List Char → Option (List Char)} :
    ∀ (s : List Char), (∀ q, q <:+ s → m q = none) → searchAux m s = none := by
  intro s
  induction s with
  | nil => intro h; simpa [searchAux] using h [] (List.suffix_refl _)
  | cons c rest ih =>
    intro h
    have h1 : m (c :: rest) = none := h _ (List.suffix_refl _)
    simp [searchAux, h1]
    exact ih fun q hq => h q (hq.trans (List.suffix_cons c rest))

theorem searchAux_some {m : List Char → Option (List Char)} :
    ∀ (s d : List Char), searchAux m s = some d →
      ∃ q, q <:+ s ∧ m q = some d := by
  intro s
  induction s with
  | nil => intro d h; exact ⟨[], List.suffix_refl _, h⟩
  | cons c rest ih =>
    intro d h
    by_cases hm : m (c :: rest) = some d
    · exact ⟨c :: rest, List.suffix_refl _, hm⟩
    · rw [searchAux] at h
      match hx : m (c :: rest) with
      | some d' => rw [hx] at h; exact absurd (hx.trans h) hm
      | none =>
        rw [hx] at h
        obtain ⟨q, hq, hmq⟩ := ih d h
        exact ⟨q, hq.trans (List.suffix_cons c rest), hmq⟩

/-! ### Helper lemmas: takeWhile / prefixes -/

theorem takeWhile_append_all {p : Char → Bool} :
    ∀ (l₁ l₂ : List Char), (∀ c ∈ l₁, p c = true) →
      (l₁ ++ l₂).takeWhile p = l₁ ++ l₂.takeWhile p := by
  intro l₁
  induction l₁ with
  | nil => intro l₂ _; rfl
  | cons c l ih =>
    intro l₂ h
    have hc : p c = true := h c (List.mem_cons_self c l)
    simp [List.takeWhile_cons, hc]
    exact ih l₂ fun x hx => h x (List.mem_cons_of_mem c hx)

theorem dropWhile_append_all {p : Char → Bool} :
    ∀ (l₁ l₂ : List Char), (∀ c ∈ l₁, p c = true) →
      (l₁ ++ l₂).dropWhile p = l₂.dropWhile p := by
  intro l₁
  induction l₁ with
  | nil => intro l₂ _; rfl
  | cons c l ih =>
    intro l₂ h
    have hc : p c = true := h c (List.mem_cons_self c l)
    simp [List.dropWhile_cons, hc]
    exact ih l₂ fun x hx => h x (List.mem_cons_of_mem c hx)

theorem takeWhile_head_neg {p : Char → Bool} {c : Char} (l : List Char)
    (h : p c = false) : (c :: l).takeWhile p = [] := by
  simp [List.takeWhile_cons, h]

theorem isPrefixOf_append_self (l t : List Char) :
    l.isPrefixOf (l ++ t) = true :=
  List.isPrefixOf_iff_prefix.mpr (List.prefix_append l t)

theorem eq_append_of_isPrefixOf {l₁ l₂ : List Char}
    (h : l₁.isPrefixOf l₂ = true) : ∃ t, l₂ = l₁ ++ t := by
  obtain ⟨t, ht⟩ := List.isPrefixOf_iff_prefix.mp h
  exact ⟨t, ht.symm⟩

theorem isPrefixOf_cons_ne {a b : Char} (l₁ l₂ : List Char) (h : a ≠ b) :
    (a :: l₁).isPrefixOf (b :: l₂) = false := by
  simp [List.isPrefixOf, h]

/-! ### Helper lemmas: anchored matchers -/

theorem stripHost_eval {host : List Char} (rest : List Char)
    (hhost : host = twitterL ∨ host = xL) :
    stripHost (host ++ comSlash ++ rest) = some rest := by
  rcases hhost with h | h <;> subst h
  · rw [stripHost, List.append_assoc]
    have h1 : twitterCom.isPrefixOf (twitterL ++ (comSlash ++ rest)) = true := by
      rw [twitterCom, ← List.append_assoc]
      exact isPrefixOf_append_self _ _
    rw [if_pos h1, twitterCom]
    simp [List.drop_left, twitterL, comSlash]
  · rw [stripHost, List.append_assoc]
    have h1 : twitterCom.isPrefixOf (xL ++ (comSlash ++ rest)) = false := by
      simp [twitterCom, twitterL, xL, comSlash, List.isPrefixOf]
    have h2 : xCom.isPrefixOf (xL ++ (comSlash ++ rest)) = true := by
      rw [xCom, ← List.append_assoc]
      exact isPrefixOf_append_self _ _
    rw [if_neg (by simp [h1]), if_pos h2, xCom]
    simp [xL, comSlash]

theorem stripHost_some {s rest : List Char} (h : stripHost s = some rest) :
    ∃ host, (host = twitterL ∨ host = xL) ∧ s = host ++ comSlash ++ rest := by
  rw [stripHost] at h
  by_cases h1 : twitterCom.isPrefixOf s = true
  · rw [if_pos h1] at h
    obtain ⟨t, ht⟩ := eq_append_of_isPrefixOf h1
    refine ⟨twitterL, Or.inl rfl, ?_⟩
    have hdrop : s.drop twitterCom.length = t := by rw [ht]; exact List.drop_left _ _
    rw [hdrop] at h
    obtain rfl := Option.some.inj h
    rw [ht, twitterCom, List.append_assoc]
  · rw [if_neg h1] at h
    by_cases h2 : xCom.isPrefixOf s = true
    · rw [if_pos h2] at h
      obtain ⟨t, ht⟩ := eq_append_of_isPrefixOf h2
      refine ⟨xL, Or.inr rfl, ?_⟩
      have hdrop : s.drop xCom.length = t := by rw [ht]; exact List.drop_left _ _
      rw [hdrop] at h
      obtain rfl := Option.some.inj h
      rw [ht, xCom, List.append_assoc]
    · rw [if_neg h2] at h
      exact absurd h (by simp)

theorem takeWhile_all_head_neg {p : Char → Bool} (l₁ l₂ : List Char)
    (h : ∀ c ∈ l₁, p c = true) (h2 : ∀ c, l₂.head? = some c → p c = false) :
    (l₁ ++ l₂).takeWhile p = l₁ := by
  rw [takeWhile_append_all l₁ l₂ h]
  cases l₂ with
  | nil => simp
  | cons c rest => rw [takeWhile_head_neg rest (h2 c rfl)]; simp

theorem matchAt1_eval {host : List Char} (user digits post : List Char)
    (hhost : host = twitterL ∨ host = xL)
    (huser : user ≠ []) (huserw : ∀ c ∈ user, isWordChar c = true)
    (hdig : digits ≠ []) (hdigd : ∀ c ∈ digits, c.isDigit = true)
    (hpost : ∀ c, post.head? = some c → c.isDigit = false) :
    matchAt1 (host ++ comSlash ++ (user ++ statusSlash ++ digits ++ post)) =
      some digits := by
  rw [matchAt1, stripHost_eval _ hhost]
  have hslash : ∀ c, (statusSlash ++ digits ++ post).head? = some c →
      isWordChar c = false := by
    intro c hc
    simp [statusSlash] at hc
    subst hc
    decide
  have htake : (user ++ (statusSlash ++ digits ++ post)).takeWhile isWordChar
      = user := takeWhile_all_head_neg _ _ huserw hslash
  have hdrop : (user ++ (statusSlash ++ digits ++ post)).dropWhile isWordChar
      = statusSlash ++ digits ++ post := by
    rw [dropWhile_append_all _ _ huserw]
    cases hsd : (statusSlash ++ digits ++ post) with
    | nil => simp [statusSlash] at hsd
    | cons c rest =>
      have hc : isWordChar c = false := hslash c (by rw [hsd]; rfl)
      rw [← hsd, hsd, List.dropWhile_cons, hc]
      simp
  rw [← List.append_assoc, ← List.append_assoc] at htake hdrop
  simp only [List.append_assoc] at htake hdrop ⊢
  rw [htake, hdrop]
  rw [if_neg (by simp [huser])]
  rw [if_pos (isPrefixOf_append_self _ _), List.drop_left]
  have hdtake : (digits ++ post).takeWhile Char.isDigit = digits :=
    takeWhile_all_head_neg _ _ hdigd hpost
  rw [hdtake, if_neg (by simp [hdig])]

theorem matchAt2_eval {host : List Char} (digits post : List Char)
    (hhost : host = twitterL ∨ host = xL)
    (hdig : digits ≠ []) (hdigd : ∀ c ∈ digits, c.isDigit = true)
    (hpost : ∀ c, post.head? = some c → c.isDigit = false) :
    matchAt2 (host ++ comSlash ++ (iwebL ++ (digits ++ post))) = some digits := by
  have hdtake : (digits ++ post).takeWhile Char.isDigit = digits :=
    takeWhile_all_head_neg _ _ hdigd hpost
  rcases hhost with h | h <;> subst h
  · rw [matchAt2]
    have h1 : twitterIWeb.isPrefixOf
        (twitterL ++ comSlash ++ (iwebL ++ (digits ++ post))) = true := by
      rw [twitterIWeb]
      simp only [List.append_assoc]
      simp only [← List.append_assoc]
      exact isPrefixOf_append_self _ _
    rw [if_pos h1, twitterIWeb]
    have hdrop : (twitterL ++ comSlash ++ (iwebL ++ (digits ++ post))).drop
        (twitterL ++ comSlash ++ iwebL).length = digits ++ post := by
      rw [show twitterL ++ comSlash ++ (iwebL ++ (digits ++ post)) =
        (twitterL ++ comSlash ++ iwebL) ++ (digits ++ post) by simp]
      exact List.drop_left _ _
    rw [hdrop, hdtake, if_neg (by simp [hdig])]
  · rw [matchAt2]
    have h1 : twitterIWeb.isPrefixOf
        (xL ++ comSlash ++ (iwebL ++ (digits ++ post))) = false := by
      rw [show twitterIWeb = 't' :: (['w', 'i', 't', 't', 'e', 'r'] ++ comSlash ++ iwebL)
        from by simp [twitterIWeb, twitterL],
        show xL ++ comSlash ++ (iwebL ++ (digits ++ post)) =
          'x' :: (comSlash ++ (iwebL ++ (digits ++ post))) from by simp [xL]]
      exact isPrefixOf_cons_ne _ _ (by decide)
    have h2 : xIWeb.isPrefixOf
        (xL ++ comSlash ++ (iwebL ++ (digits ++ post))) = true := by
      rw [xIWeb]
      simp only [← List.append_assoc]
      exact isPrefixOf_append_self _ _
    rw [if_neg (by rw [h1]; simp), if_pos h2, xIWeb]
    have hdrop : (xL ++ comSlash ++ (iwebL ++ (digits ++ post))).drop
        (xL ++ comSlash ++ iwebL).length = digits ++ post := by
      rw [show xL ++ comSlash ++ (iwebL ++ (digits ++ post)) =
        (xL ++ comSlash ++ iwebL) ++ (digits ++ post) by simp]
      exact List.drop_left _ _
    rw [hdrop, hdtake, if_neg (by simp [hdig])]

theorem matchAt1_some_decomp {t d : List Char} (h : matchAt1 t = some d) :
    ∃ host user post, (host = twitterL ∨ host = xL) ∧ user ≠ [] ∧
      (∀ c ∈ user, isWordChar c = true) ∧ d ≠ [] ∧ (∀ c ∈ d, c.isDigit = true) ∧
      (∀ c, post.head? = some c → c.isDigit = false) ∧
      t = host ++ comSlash ++ (user ++ (statusSlash ++ (d ++ post))) := by
  simp only [matchAt1] at h
  split at h
  · exact absurd h (by simp)
  · rename_i rest hst
    obtain ⟨host, hhost, hteq⟩ := stripHost_some hst
    by_cases hue : (rest.takeWhile isWordChar).isEmpty = true
    · rw [if_pos hue] at h; exact absurd h (by simp)
    · rw [if_neg hue] at h
      by_cases hsp : statusSlash.isPrefixOf (rest.dropWhile isWordChar) = true
      · rw [if_pos hsp] at h
        obtain ⟨w, hw⟩ := eq_append_of_isPrefixOf hsp
        have hdrop3 : (rest.dropWhile isWordChar).drop statusSlash.length = w := by
          rw [hw]; exact List.drop_left _ _
        rw [hdrop3] at h
        by_cases hde : (w.takeWhile Char.isDigit).isEmpty = true
        · rw [if_pos hde] at h; exact absurd h (by simp)
        · rw [if_neg hde] at h
          have hd : d = w.takeWhile Char.isDigit := (Option.some.inj h).symm
          refine ⟨host, rest.takeWhile isWordChar, w.dropWhile Char.isDigit,
            hhost, by simpa using hue, fun c hc => List.mem_takeWhile_imp hc,
            by rw [hd]; simpa using hde,
            fun c hc => List.mem_takeWhile_imp (hd ▸ hc), ?_, ?_⟩
          · intro c hc
            have hnd := List.head?_dropWhile_not Char.isDigit w
            rw [hc] at hnd
            exact hnd
          · calc t = host ++ comSlash ++ rest := hteq
              _ = host ++ comSlash ++
                  (rest.takeWhile isWordChar ++ rest.dropWhile isWordChar) := by
                    rw [List.takeWhile_append_dropWhile]
              _ = host ++ comSlash ++
                  (rest.takeWhile isWordChar ++ (statusSlash ++ w)) := by rw [hw]
              _ = host ++ comSlash ++ (rest.takeWhile isWordChar ++ (statusSlash ++
                  (w.takeWhile Char.isDigit ++ w.dropWhile Char.isDigit))) := by
                    rw [List.takeWhile_append_dropWhile]
              _ = host ++ comSlash ++ (rest.takeWhile isWordChar ++ (statusSlash ++
                  (d ++ w.dropWhile Char.isDigit))) := by rw [hd]
      · rw [if_neg hsp] at h; exact absurd h (by simp)

theorem matchAt2_some_decomp {t d : List Char} (h : matchAt2 t = some d) :
    ∃ host post, (host = twitterL ∨ host = xL) ∧ d ≠ [] ∧
      (∀ c ∈ d, c.isDigit = true) ∧
      (∀ c, post.head? = some c → c.isDigit = false) ∧
      t = host ++ comSlash ++ (iwebL ++ (d ++ post)) := by
  simp only [matchAt2] at h
  by_cases h1 : twitterIWeb.isPrefixOf t = true
  · rw [if_pos h1] at h
    obtain ⟨w, hw⟩ := eq_append_of_isPrefixOf h1
    have hdrop : t.drop twitterIWeb.length = w := by rw [hw]; exact List.drop_left _ _
    rw [hdrop] at h
    by_cases hde : (w.takeWhile Char.isDigit).isEmpty = true
    · rw [if_pos hde] at h; exact absurd h (by simp)
    · rw [if_neg hde] at h
      have hd : d = w.takeWhile Char.isDigit := (Option.some.inj h).symm
      refine ⟨twitterL, w.dropWhile Char.isDigit, Or.inl rfl,
        by rw [hd]; simpa using hde,
        fun c hc => List.mem_takeWhile_imp (hd ▸ hc), ?_, ?_⟩
      · intro c hc
        have hnd := List.head?_dropWhile_not Char.isDigit w
        rw [hc] at hnd
        exact hnd
      · calc t = twitterIWeb ++ w := hw
          _ = twitterIWeb ++ (w.takeWhile Char.isDigit ++ w.dropWhile Char.isDigit) := by
                rw [List.takeWhile_append_dropWhile]
          _ = twitterIWeb ++ (d ++ w.dropWhile Char.isDigit) := by rw [hd]
          _ = twitterL ++ comSlash ++ (iwebL ++ (d ++ w.dropWhile Char.isDigit)) := by
                rw [twitterIWeb]; simp
  · rw [if_neg h1] at h
    by_cases h2 : xIWeb.isPrefixOf t = true
    · rw [if_pos h2] at h
      obtain ⟨w, hw⟩ := eq_append_of_isPrefixOf h2
      have hdrop : t.drop xIWeb.length = w := by rw [hw]; exact List.drop_left _ _
      rw [hdrop] at h
      by_cases hde : (w.takeWhile Char.isDigit).isEmpty = true
      · rw [if_pos hde] at h; exact absurd h (by simp)
      · rw [if_neg hde] at h
        have hd : d = w.takeWhile Char.isDigit := (Option.some.inj h).symm
        refine ⟨xL, w.dropWhile Char.isDigit, Or.inr rfl,
          by rw [hd]; simpa using hde,
          fun c hc => List.mem_takeWhile_imp (hd ▸ hc), ?_, ?_⟩
        · intro c hc
          have hnd := List.head?_dropWhile_not Char.isDigit w
          rw [hc] at hnd
          exact hnd
        · calc t = xIWeb ++ w := hw
            _ = xIWeb ++ (w.takeWhile Char.isDigit ++ w.dropWhile Char.isDigit) := by
                  rw [List.takeWhile_append_dropWhile]
            _ = xIWeb ++ (d ++ w.dropWhile Char.isDigit) := by rw [hd]
            _ = xL ++ comSlash ++ (iwebL ++ (d ++ w.dropWhile Char.isDigit)) := by
                  rw [xIWeb]; simp
    · rw [if_neg h2] at h; exact absurd h (by simp)

/-! ### Helper lemmas: locating the unique `.com/` occurrence -/

/-- `.com/` occurs in `s` only at position `p`:  canonical-form hypothesis
pinning down where the regex engine can anchor a host match. -/
def uniqueComAt (s : List Char) (p : Nat) : Prop :=
  ∀ j, j < s.length → comSlash.isPrefixOf (s.drop j) = true → j = p

instance uniqueComAt.instDec (s : List Char) (p : Nat) :
    Decidable (uniqueComAt s p) :=
  inferInstanceAs (Decidable
    (∀ j, j < s.length → comSlash.isPrefixOf (s.drop j) = true → j = p))

theorem unique_decomp {s pre host rest : List Char}
    (hs : s = pre ++ host ++ comSlash ++ rest)
    (hU : uniqueComAt s (pre.length + host.length)) :
    ∀ u w, s = u ++ (comSlash ++ w) → u = pre ++ host ∧ w = rest := by
  intro u w huw
  have hj : u.length = pre.length + host.length := by
    apply hU
    · rw [huw]
      simp [comSlash]
    · rw [huw, List.drop_left]
      exact isPrefixOf_append_self _ _
  have hs2 : (pre ++ host) ++ (comSlash ++ rest) = u ++ (comSlash ++ w) := by
    rw [← huw, hs]; simp
  have hlen : (pre ++ host).length = u.length := by simp [hj]
  obtain ⟨h1, h2⟩ := List.append_inj hs2 hlen
  exact ⟨h1.symm, (List.append_cancel_left h2).symm⟩

theorem last_clash : ∀ a pre : List Char, a ++ twitterL ≠ pre ++ xL := by
  intro a pre h
  have h2 : twitterL.reverse ++ a.reverse = xL.reverse ++ pre.reverse := by
    rw [← List.reverse_append, ← List.reverse_append, h]
  simp [twitterL, xL] at h2

theorem host_cases {a pre host hostb : List Char}
    (hhost : host = twitterL ∨ host = xL) (hhostb : hostb = twitterL ∨ hostb = xL)
    (h : a ++ hostb = pre ++ host) : a = pre ∧ hostb = host := by
  rcases hhost with h1 | h1 <;> rcases hhostb with h2 | h2 <;> subst h1 <;> subst h2
  · exact ⟨(List.append_inj' h rfl).1, rfl⟩
  · exact absurd h.symm (last_clash pre a)
  · exact absurd h (last_clash a pre)
  · exact ⟨(List.append_inj' h rfl).1, rfl⟩

/-! ### Helper lemmas: the matchers fail away from the intended position -/

theorem matchAt1_none_far {s pre host rest : List Char}
    (hhost : host = twitterL ∨ host = xL)
    (hs : s = pre ++ host ++ comSlash ++ rest)
    (hU : uniqueComAt s (pre.length + host.length)) :
    ∀ q, q <:+ s → (host ++ comSlash ++ rest).length < q.length →
      matchAt1 q = none := by
  intro q hq hlen
  cases hm : matchAt1 q with
  | none => rfl
  | some d =>
    exfalso
    obtain ⟨hostb, user, post, hhostb, _, _, _, _, _, hqeq⟩ := matchAt1_some_decomp hm
    obtain ⟨a, ha⟩ := hq
    have hsu : s = (a ++ hostb) ++
        (comSlash ++ (user ++ (statusSlash ++ (d ++ post)))) := by
      rw [← ha, hqeq]; simp
    obtain ⟨hu, _⟩ := unique_decomp hs hU _ _ hsu
    obtain ⟨ha2, hb2⟩ := host_cases hhost hhostb hu
    have : q.length = (host ++ comSlash ++ rest).length := by
      have hw := (unique_decomp hs hU _ _ hsu).2
      rw [hqeq, hb2]
      simp only [List.length_append]
      have := congrArg List.length hw
      simp only [List.length_append] at this
      omega
    omega

theorem matchAt2_none_far {s pre host rest : List Char}
    (hhost : host = twitterL ∨ host = xL)
    (hs : s = pre ++ host ++ comSlash ++ rest)
    (hU : uniqueComAt s (pre.length + host.length)) :
    ∀ q, q <:+ s → (host ++ comSlash ++ rest).length < q.length →
      matchAt2 q = none := by
  intro q hq hlen
  cases hm : matchAt2 q with
  | none => rfl
  | some d =>
    exfalso
    obtain ⟨hostb, post, hhostb, _, _, _, hqeq⟩ := matchAt2_some_decomp hm
    obtain ⟨a, ha⟩ := hq
    have hsu : s = (a ++ hostb) ++ (comSlash ++ (iwebL ++ (d ++ post))) := by
      rw [← ha, hqeq]; simp
    obtain ⟨hu, _⟩ := unique_decomp hs hU _ _ hsu
    obtain ⟨ha2, hb2⟩ := host_cases hhost hhostb hu
    have : q.length = (host ++ comSlash ++ rest).length := by
      have hw := (unique_decomp hs hU _ _ hsu).2
      rw [hqeq, hb2]
      simp only [List.length_append]
      have := congrArg List.length hw
      simp only [List.length_append] at this
      omega
    omega

theorem matchAt1_none_all_iweb {s pre host tail : List Char}
    (hs : s = pre ++ host ++ comSlash ++ (iwebL ++ tail)) :
    uniqueComAt s (pre.length + host.length) →
    ∀ q, q <:+ s → matchAt1 q = none := by
  intro hU q hq
  cases hm : matchAt1 q with
  | none => rfl
  | some d =>
    exfalso
    obtain ⟨hostb, user, post, hhostb, huser, huserw, _, _, _, hqeq⟩ :=
      matchAt1_some_decomp hm
    obtain ⟨a, ha⟩ := hq
    have hsu : s = (a ++ hostb) ++
        (comSlash ++ (user ++ (statusSlash ++ (d ++ post)))) := by
      rw [← ha, hqeq]; simp
    have heq : user ++ (statusSlash ++ (d ++ post)) = iwebL ++ tail :=
      (unique_decomp hs hU _ _ hsu).2
    have hiweb : iwebL ++ tail =
        'i' :: '/' :: 'w' :: 'e' :: 'b' :: (statusSlash ++ tail) := by
      simp [iwebL]
    rw [hiweb] at heq
    have huser_eq : user = ['i'] := by
      have h1 := congrArg (List.takeWhile isWordChar) heq
      have h2 : (user ++ (statusSlash ++ (d ++ post))).takeWhile isWordChar
          = user := by
        apply takeWhile_all_head_neg _ _ huserw
        intro c hc
        simp [statusSlash] at hc
        subst hc
        decide
      have h3 : ('i' :: '/' :: 'w' :: 'e' :: 'b' ::
          (statusSlash ++ tail)).takeWhile isWordChar = ['i'] := rfl
      rw [h2, h3] at h1
      exact h1
    rw [huser_eq] at heq
    simp [statusSlash] at heq

/-- C2: the URL identifier extractor is total (a Lean function of type
`String → Option String`), returns exactly the digit sequence for strings of
the two accepted path shapes — the username-qualified `/status/` shape being
tried first — and returns `none` for every string not containing such a
shape (soundness: any `some` result exhibits a shape decomposition). -/
theorem c2_extract_tweet_id_exact :
    (∀ pre host user digits post : List Char,
      (host = twitterL ∨ host = xL) → user ≠ [] →
      (∀ c ∈ user, isWordChar c = true) → digits ≠ [] →
      (∀ c ∈ digits, c.isDigit = true) →
      (∀ c, post.head? = some c → c.isDigit = false) →
      uniqueComAt (pre ++ host ++ comSlash ++ (user ++ (statusSlash ++ (digits ++ post))))
        (pre.length + host.length) →
      extract_tweet_id (String.mk (pre ++ host ++ comSlash ++
        (user ++ (statusSlash ++ (digits ++ post))))) = some (String.mk digits)) ∧
    (∀ pre host digits post : List Char,
      (host = twitterL ∨ host = xL) → digits ≠ [] →
      (∀ c ∈ digits, c.isDigit = true) →
      (∀ c, post.head? = some c → c.isDigit = false) →
      uniqueComAt (pre ++ host ++ comSlash ++ (iwebL ++ (digits ++ post)))
        (pre.length + host.length) →
      extract_tweet_id (String.mk (pre ++ host ++ comSlash ++
        (iwebL ++ (digits ++ post)))) = some (String.mk digits)) ∧
    (∀ s d : String, extract_tweet_id s = some d →
      ∃ ds, d = String.mk ds ∧ ds ≠ [] ∧ (∀ c ∈ ds, c.isDigit = true) ∧
        ((∃ pre host user post, (host = twitterL ∨ host = xL) ∧ user ≠ [] ∧
            (∀ c ∈ user, isWordChar c = true) ∧
            s.data = pre ++ host ++ comSlash ++
              (user ++ (statusSlash ++ (ds ++ post)))) ∨
         (∃ pre host post, (host = twitterL ∨ host = xL) ∧
            s.data = pre ++ host ++ comSlash ++ (iwebL ++ (ds ++ post))))) := by
  refine ⟨?_, ?_, ?_⟩
  · intro pre host user digits post hhost huser huserw hdig hdigd hpost hU
    have hs : pre ++ host ++ comSlash ++ (user ++ (statusSlash ++ (digits ++ post)))
        = pre ++ (host ++ comSlash ++ (user ++ (statusSlash ++ (digits ++ post)))) := by
      simp
    rw [hs] at hU
    have h1 : searchAux matchAt1
        (pre ++ (host ++ comSlash ++ (user ++ (statusSlash ++ (digits ++ post)))))
        = searchAux matchAt1
          (host ++ comSlash ++ (user ++ (statusSlash ++ (digits ++ post)))) := by
      apply searchAux_append
      intro q hq hlen
      exact matchAt1_none_far hhost (by simp) hU q hq hlen
    have h2 : matchAt1
        (host ++ comSlash ++ (user ++ (statusSlash ++ (digits ++ post))))
        = some digits := by
      have h0 := matchAt1_eval user digits post hhost huser huserw hdig hdigd hpost
      have hsh : host ++ comSlash ++ (user ++ statusSlash ++ digits ++ post)
          = host ++ comSlash ++ (user ++ (statusSlash ++ (digits ++ post))) := by
        simp
      rw [hsh] at h0
      exact h0
    have h4 : searchAux matchAt1 (String.mk (pre ++ host ++ comSlash ++
        (user ++ (statusSlash ++ (digits ++ post))))).data = some digits := by
      show searchAux matchAt1 (pre ++ host ++ comSlash ++
        (user ++ (statusSlash ++ (digits ++ post)))) = some digits
      rw [hs, h1]
      exact searchAux_eval h2
    unfold extract_tweet_id
    rw [h4]
  · intro pre host digits post hhost hdig hdigd hpost hU
    have hs : pre ++ host ++ comSlash ++ (iwebL ++ (digits ++ post))
        = pre ++ (host ++ comSlash ++ (iwebL ++ (digits ++ post))) := by simp
    rw [hs] at hU
    have h4 : searchAux matchAt1 (String.mk (pre ++ host ++ comSlash ++
        (iwebL ++ (digits ++ post)))).data = none := by
      show searchAux matchAt1
        (pre ++ host ++ comSlash ++ (iwebL ++ (digits ++ post))) = none
      rw [hs]
      apply searchAux_none
      intro q hq
      exact @matchAt1_none_all_iweb _ pre host (digits ++ post) (by simp) hU q hq
    have h1 : searchAux matchAt2
        (pre ++ (host ++ comSlash ++ (iwebL ++ (digits ++ post))))
        = searchAux matchAt2 (host ++ comSlash ++ (iwebL ++ (digits ++ post))) := by
      apply searchAux_append
      intro q hq hlen
      exact matchAt2_none_far hhost (by simp) hU q hq hlen
    have h5 : searchAux matchAt2 (String.mk (pre ++ host ++ comSlash ++
        (iwebL ++ (digits ++ post)))).data = some digits := by
      show searchAux matchAt2
        (pre ++ host ++ comSlash ++ (iwebL ++ (digits ++ post))) = some digits
      rw [hs, h1]
      exact searchAux_eval (matchAt2_eval digits post hhost hdig hdigd hpost)
    unfold extract_tweet_id
    rw [h4, h5]
  · intro s d h
    unfold extract_tweet_id at h
    cases hm1 : searchAux matchAt1 s.data with
    | some d0 =>
      rw [hm1] at h
      obtain rfl : String.mk d0 = d := Option.some.inj h
      obtain ⟨q, hq, hmq⟩ := searchAux_some _ _ hm1
      obtain ⟨host, user, post, hhost, huser, huserw, hd, hdd, _, hqeq⟩ :=
        matchAt1_some_decomp hmq
      obtain ⟨a, ha⟩ := hq
      refine ⟨d0, rfl, hd, hdd, Or.inl ⟨a, host, user, post, hhost, huser, huserw, ?_⟩⟩
      rw [← ha, hqeq]
      simp
    | none =>
      rw [hm1] at h
      cases hm2 : searchAux matchAt2 s.data with
      | some d0 =>
        rw [hm2] at h
        obtain rfl : String.mk d0 = d := Option.some.inj h
        obtain ⟨q, hq, hmq⟩ := searchAux_some _ _ hm2
        obtain ⟨host, post, hhost, hd, hdd, _, hqeq⟩ := matchAt2_some_decomp hmq
        obtain ⟨a, ha⟩ := hq
        refine ⟨d0, rfl, hd, hdd, Or.inr ⟨a, host, post, hhost, ?_⟩⟩
        rw [← ha, hqeq]
        simp
      | none => rw [hm2] at h; exact absurd h (by simp)

/-- Witness for C2: `https://twitter.com/user/status/123` yields `123`. -/
theorem c2_extract_tweet_id_exact_witness :
    extract_tweet_id (String.mk (['h', 't', 't', 'p', 's', ':', '/', '/'] ++
      twitterL ++ comSlash ++ (['u', 's', 'e', 'r'] ++
        (statusSlash ++ (['1', '2', '3'] ++ []))))) =
      some (String.mk ['1', '2', '3']) :=
  c2_extract_tweet_id_exact.1 ['h', 't', 't', 'p', 's', ':', '/', '/'] twitterL
    ['u', 's', 'e', 'r'] ['1', '2', '3'] [] (Or.inl rfl) (by decide) (by decide)
    (by decide) (by decide) (by simp) (by decide)

theorem extract_tweet_id_some_digits {s d : String}
    (h : extract_tweet_id s = some d) :
    ∃ ds, d = String.mk ds ∧ ds ≠ [] ∧ ∀ c ∈ ds, c.isDigit = true := by
  unfold extract_tweet_id at h
  cases hm1 : searchAux matchAt1 s.data with
  | some d0 =>
    rw [hm1] at h
    obtain rfl : String.mk d0 = d := Option.some.inj h
    obtain ⟨q, _, hmq⟩ := searchAux_some _ _ hm1
    obtain ⟨_, _, _, _, _, _, hd, hdd, _, _⟩ := matchAt1_some_decomp hmq
    exact ⟨d0, rfl, hd, hdd⟩
  | none =>
    rw [hm1] at h
    cases hm2 : searchAux matchAt2 s.data with
    | some d0 =>
      rw [hm2] at h
      obtain rfl : String.mk d0 = d := Option.some.inj h
      obtain ⟨q, _, hmq⟩ := searchAux_some _ _ hm2
      obtain ⟨_, _, _, hd, hdd, _, _⟩ := matchAt2_some_decomp hmq
      exact ⟨d0, rfl, hd, hdd⟩
    | none => rw [hm2] at h; exact absurd h (by simp)

/-- C8: a present extractor result is a non-empty all-digit string, so it
contains no path separator, no backslash and no dot (hence no traversal
sequence) when interpolated into the output filename. -/
theorem c8_extracted_id_digits_only (s d : String)
    (h : extract_tweet_id s = some d) :
    d.data ≠ [] ∧ (∀ c ∈ d.data, c.isDigit = true) ∧
      '/' ∉ d.data ∧ '\\' ∉ d.data ∧ '.' ∉ d.data := by
  obtain ⟨ds, rfl, hd, hdd⟩ := extract_tweet_id_some_digits h
  refine ⟨hd, hdd, ?_, ?_, ?_⟩ <;> intro hmem
  · exact absurd (hdd '/' hmem) (by decide)
  · exact absurd (hdd '\\' hmem) (by decide)
  · exact absurd (hdd '.' hmem) (by decide)

/-- Witness for C8 at `x.com/a/status/42`. -/
theorem c8_extracted_id_digits_only_witness :
    (String.mk ['4', '2']).data ≠ [] ∧
      (∀ c ∈ (String.mk ['4', '2']).data, c.isDigit = true) ∧
      '/' ∉ (String.mk ['4', '2']).data ∧ '\\' ∉ (String.mk ['4', '2']).data ∧
      '.' ∉ (String.mk ['4', '2']).data :=
  c8_extracted_id_digits_only
    (String.mk ['x', '.', 'c', 'o', 'm', '/', 'a', '/', 's', 't', 'a', 't',
      'u', 's', '/', '4', '2'])
    (String.mk ['4', '2']) (by decide)

/-! ### Helper lemmas: Python `max` with key (first maximum wins) -/

/-- `b` is the first bit-rate maximum of `l`: everything before it is
strictly smaller, everything after it no larger. -/
def IsFirstMax (l : List Variant) (b : Variant) : Prop :=
  ∃ l₁ l₂, l = l₁ ++ b :: l₂ ∧ (∀ x ∈ l₁, keyOf x < keyOf b) ∧
    (∀ x ∈ l₂, keyOf x ≤ keyOf b)

theorem isFirstMax_le {l : List Variant} {b : Variant} (h : IsFirstMax l b) :
    ∀ y ∈ l, keyOf y ≤ keyOf b := by
  obtain ⟨l₁, l₂, rfl, hlt, hle⟩ := h
  intro y hy
  rcases List.mem_append.mp hy with h1 | h2
  · exact le_of_lt (hlt y h1)
  · rcases List.mem_cons.mp h2 with rfl | h3
    · exact le_refl _
    · exact hle y h3

theorem maxByFirst_isFirstMax :
    ∀ (vs : List Variant) (v : Variant),
      IsFirstMax (v :: vs) (maxByFirst keyOf v vs) := by
  intro vs
  induction vs with
  | nil => exact fun v => ⟨[], [], rfl, by simp, by simp⟩
  | cons x rest ih =>
    intro v
    rw [maxByFirst]
    by_cases hxy : keyOf x > keyOf v
    · rw [if_pos hxy]
      obtain ⟨l₁, l₂, heq, hlt, hle⟩ := ih x
      have hxb : keyOf x ≤ keyOf (maxByFirst keyOf x rest) :=
        isFirstMax_le ⟨l₁, l₂, heq, hlt, hle⟩ x (List.mem_cons_self x rest)
      refine ⟨v :: l₁, l₂, ?_, ?_, hle⟩
      · rw [List.cons_append, ← heq]
      · intro y hy
        rcases List.mem_cons.mp hy with rfl | h1
        · exact lt_of_lt_of_le hxy hxb
        · exact hlt y h1
    · rw [if_neg hxy]
      have hxv : keyOf x ≤ keyOf v := Nat.le_of_not_lt hxy
      obtain ⟨l₁, l₂, heq, hlt, hle⟩ := ih v
      cases l₁ with
      | nil =>
        simp only [List.nil_append] at heq
        injection heq with hb hrest
        refine ⟨[], x :: rest, ?_, by simp, ?_⟩
        · rw [List.nil_append, ← hb]
        · intro y hy
          rcases List.mem_cons.mp hy with rfl | h2
          · rw [← hb]; exact hxv
          · rw [hrest] at h2; exact hle y h2
      | cons a l₁' =>
        simp only [List.cons_append] at heq
        injection heq with ha hrest
        have hvlt : keyOf v < keyOf (maxByFirst keyOf v rest) := by
          have h0 := hlt a (List.mem_cons_self a l₁')
          rw [← ha] at h0
          exact h0
        refine ⟨v :: x :: l₁', l₂, ?_, ?_, hle⟩
        · rw [List.cons_append, List.cons_append, ← hrest]
        · intro y hy
          rcases List.mem_cons.mp hy with rfl | h1
          · exact hvlt
          · rcases List.mem_cons.mp h1 with rfl | h2
            · exact lt_of_le_of_lt hxv hvlt
            · exact hlt y (List.mem_cons_of_mem a h2)

theorem isFirstMax_unique {l : List Variant} {b₁ b₂ : Variant}
    (h1 : IsFirstMax l b₁) (h2 : IsFirstMax l b₂) : b₁ = b₂ := by
  obtain ⟨l₁, l₂, he1, hlt1, hle1⟩ := h1
  obtain ⟨m₁, m₂, he2, hlt2, hle2⟩ := h2
  have he3 : l₁ ++ b₁ :: l₂ = m₁ ++ b₂ :: m₂ := by rw [← he1, ← he2]
  rcases Nat.lt_trichotomy l₁.length m₁.length with hlen | hlen | hlen
  · exfalso
    have hd := congrArg (List.drop l₁.length) he3
    rw [List.drop_left, List.drop_append_of_le_length (Nat.le_of_lt hlen)] at hd
    cases hm : m₁.drop l₁.length with
    | nil =>
      have := congrArg List.length hm
      simp [List.length_drop] at this
      omega
    | cons e es =>
      rw [hm] at hd
      simp only [List.cons_append] at hd
      injection hd with hb he'
      have hb1m : b₁ ∈ m₁ := by
        rw [hb]
        have hsub : e ∈ m₁.drop l₁.length := by
          rw [hm]; exact List.mem_cons_self e es
        exact (List.drop_suffix l₁.length m₁).subset hsub
      have hx1 : keyOf b₁ < keyOf b₂ := hlt2 b₁ hb1m
      have hb2l : b₂ ∈ l₂ := by
        rw [he']
        exact List.mem_append.mpr (Or.inr (List.mem_cons_self b₂ m₂))
      have hx2 : keyOf b₂ ≤ keyOf b₁ := hle1 b₂ hb2l
      omega
  · obtain ⟨_, h4⟩ := List.append_inj he3 hlen
    exact (List.cons_eq_cons.mp h4).1
  · exfalso
    have hd := congrArg (List.drop m₁.length) he3.symm
    rw [List.drop_left, List.drop_append_of_le_length (Nat.le_of_lt hlen)] at hd
    cases hm : l₁.drop m₁.length with
    | nil =>
      have := congrArg List.length hm
      simp [List.length_drop] at this
      omega
    | cons e es =>
      rw [hm] at hd
      simp only [List.cons_append] at hd
      injection hd with hb he'
      have hb2m : b₂ ∈ l₁ := by
        rw [hb]
        have hsub : e ∈ l₁.drop m₁.length := by
          rw [hm]; exact List.mem_cons_self e es
        exact (List.drop_suffix m₁.length l₁).subset hsub
      have hx1 : keyOf b₂ < keyOf b₁ := hlt1 b₂ hb2m
      have hb1l : b₁ ∈ m₂ := by
        rw [he']
        exact List.mem_append.mpr (Or.inr (List.mem_cons_self b₁ l₂))
      have hx2 : keyOf b₁ ≤ keyOf b₂ := hle2 b₁ hb1l
      omega

/-- C1: for a response whose first video-typed media entry carries a
variants list, the selector filters to `content_type = "video/mp4"`, fails
with the no-mp4-variants error on an empty filter result, and otherwise
returns the URL of the first maximal-bit-rate variant (missing bit-rate is
0); in particular the A/B/C example returns B's URL. -/
theorem c1_variant_selector :
    (∀ (td : TweetData) (inc : Includes) (media : List Media) (vm : Media)
        (vs : List Variant),
      td.includes = some inc → inc.media = some media →
      findVideoMedia media = .ok (some vm) → vm.variants = some vs →
      ((vs.filter (fun v => v.content_type == some "video/mp4") = [] →
          selectVideoUrl td = .error .noMp4) ∧
       (∀ b u,
          IsFirstMax (vs.filter (fun v => v.content_type == some "video/mp4")) b →
          b.url = some u → selectVideoUrl td = .ok u))) ∧
    selectVideoUrl ⟨some ⟨some [⟨some "video",
      some [⟨some "video/mp4", some 600000, some "A"⟩,
            ⟨some "video/mp4", some 2176000, some "B"⟩,
            ⟨some "application/x-mpegURL", some 0, some "C"⟩]⟩]⟩⟩ =
      .ok "B" := by
  constructor
  · intro td inc media vm vs h1 h2 h3 h4
    constructor
    · intro hf
      simp only [selectVideoUrl, h1, h2, h3, h4, hf]
    · intro b u hmax hurl
      cases hfil : vs.filter (fun v => v.content_type == some "video/mp4") with
      | nil =>
        exfalso
        obtain ⟨l₁, l₂, he, _, _⟩ := hmax
        rw [hfil] at he
        exact absurd he (by simp)
      | cons v' vs' =>
        have hb : maxByFirst keyOf v' vs' = b :=
          isFirstMax_unique (maxByFirst_isFirstMax vs' v') (hfil ▸ hmax)
        simp only [selectVideoUrl, h1, h2, h3, h4, hfil, hb, hurl]
  · rfl

/-- Witness for C1: a two-variant list picks the higher bit rate. -/
theorem c1_variant_selector_witness :
    selectVideoUrl ⟨some ⟨some [⟨some "video",
      some [⟨some "video/mp4", some 1, some "lo"⟩,
            ⟨some "video/mp4", some 5, some "hi"⟩]⟩]⟩⟩ = .ok "hi" :=
  (c1_variant_selector.1
    ⟨some ⟨some [⟨some "video",
      some [⟨some "video/mp4", some 1, some "lo"⟩,
            ⟨some "video/mp4", some 5, some "hi"⟩]⟩]⟩⟩
    ⟨some [⟨some "video",
      some [⟨some "video/mp4", some 1, some "lo"⟩,
            ⟨some "video/mp4", some 5, some "hi"⟩]⟩]⟩
    [⟨some "video",
      some [⟨some "video/mp4", some 1, some "lo"⟩,
            ⟨some "video/mp4", some 5, some "hi"⟩]⟩]
    ⟨some "video",
      some [⟨some "video/mp4", some 1, some "lo"⟩,
            ⟨some "video/mp4", some 5, some "hi"⟩]⟩
    [⟨some "video/mp4", some 1, some "lo"⟩,
     ⟨some "video/mp4", some 5, some "hi"⟩]
    rfl rfl rfl rfl).2
    ⟨some "video/mp4", some 5, some "hi"⟩ "hi"
    ⟨[⟨some "video/mp4", some 1, some "lo"⟩], [], by decide, by decide, by decide⟩
    rfl

/-- C5: a response lacking `includes` or `includes.media` fails with the
no-media error, not any other error kind. -/
theorem c5_no_media_error (td : TweetData)
    (h : td.includes = none ∨ ∃ inc, td.includes = some inc ∧ inc.media = none) :
    selectVideoUrl td = .error .noMedia := by
  rcases h with h | ⟨inc, h1, h2⟩
  · simp [selectVideoUrl, h]
  · simp [selectVideoUrl, h1, h2]

/-- Witness for C5 at the empty response. -/
theorem c5_no_media_error_witness :
    selectVideoUrl ⟨none⟩ = .error .noMedia :=
  c5_no_media_error ⟨none⟩ (Or.inl rfl)

/-- C9: a first video-typed media entry without a `variants` field fails
with the no-video error (as when no video-typed entry exists), not with the
no-mp4-variants error. -/
theorem c9_missing_variants_is_no_video (td : TweetData) (inc : Includes)
    (media : List Media) (vm : Media)
    (h1 : td.includes = some inc) (h2 : inc.media = some media)
    (h3 : findVideoMedia media = .ok (some vm)) (h4 : vm.variants = none) :
    selectVideoUrl td = .error .noVideo := by
  simp [selectVideoUrl, h1, h2, h3, h4]

/-- Witness for C9: an `animated_gif` entry with no variants field. -/
theorem c9_missing_variants_is_no_video_witness :
    selectVideoUrl ⟨some ⟨some [⟨some "animated_gif", none⟩]⟩⟩ =
      .error .noVideo :=
  c9_missing_variants_is_no_video
    ⟨some ⟨some [⟨some "animated_gif", none⟩]⟩⟩
    ⟨some [⟨some "animated_gif", none⟩]⟩
    [⟨some "animated_gif", none⟩]
    ⟨some "animated_gif", none⟩
    rfl rfl rfl rfl

/-! ### Helper lemmas: the download write loop -/

theorem writeBody_foldl (t : Nat) :
    ∀ (chunks : List (List Nat)) (dl : Nat) (file prog : List Nat),
      chunks.foldl (writeStep t) (dl, file, prog) =
        (dl + (chunks.map List.length).sum, file ++ chunks.flatten,
          prog ++ progressSeq t dl chunks) := by
  intro chunks
  induction chunks with
  | nil => intro dl file prog; simp [progressSeq]
  | cons ch rest ih =>
    intro dl file prog
    rw [List.foldl_cons,
      show writeStep t (dl, file, prog) ch =
        (dl + ch.length, file ++ ch, prog ++ [100 * (dl + ch.length) / t]) from rfl,
      ih]
    simp [progressSeq, Nat.add_assoc]

/-- C3: with a nonzero content length, the loop appends every chunk in order
(the file is the concatenation of the chunks) and after each chunk emits
`floor(100 * downloaded / total)`; in particular two 8192-byte chunks under
content length 16384 give progress `[50, 100]` and a 16384-byte file. -/
theorem c3_chunked_download_progress :
    (∀ (t : Nat) (chunks : List (List Nat)), t ≠ 0 →
      (writeBody (totalSizeOf (some t)) chunks).1 = chunks.flatten ∧
      (writeBody (totalSizeOf (some t)) chunks).2 = progressSeq t 0 chunks) ∧
    (∀ c1 c2 : List Nat, c1.length = 8192 → c2.length = 8192 →
      (writeBody (totalSizeOf (some 16384)) [c1, c2]).2 = [50, 100] ∧
      (writeBody (totalSizeOf (some 16384)) [c1, c2]).1.length = 16384) := by
  have hmain : ∀ (t : Nat) (chunks : List (List Nat)), t ≠ 0 →
      (writeBody (totalSizeOf (some t)) chunks).1 = chunks.flatten ∧
      (writeBody (totalSizeOf (some t)) chunks).2 = progressSeq t 0 chunks := by
    intro t chunks ht
    have h0 : totalSizeOf (some t) = t := rfl
    rw [writeBody, h0, if_neg ht, writeBody_foldl t chunks 0 [] []]
    simp
  refine ⟨hmain, ?_⟩
  intro c1 c2 h1 h2
  have h := hmain 16384 [c1, c2] (by decide)
  constructor
  · rw [h.2]
    simp [progressSeq, h1, h2]
  · rw [h.1]
    simp [h1, h2]

/-- Witness for C3 with two concrete 8192-byte chunks. -/
theorem c3_chunked_download_progress_witness :
    (writeBody (totalSizeOf (some 16384))
      [List.replicate 8192 0, List.replicate 8192 0]).2 = [50, 100] ∧
    (writeBody (totalSizeOf (some 16384))
      [List.replicate 8192 0, List.replicate 8192 0]).1.length = 16384 :=
  c3_chunked_download_progress.2 (List.replicate 8192 0) (List.replicate 8192 0)
    (List.length_replicate 8192 0) (List.length_replicate 8192 0)

/-- C6: with the content-length header absent or zero, the whole body is
written in one operation and no progress update is emitted. -/
theorem c6_zero_length_single_write (header : Option Nat)
    (chunks : List (List Nat)) (h : header = none ∨ header = some 0) :
    writeBody (totalSizeOf header) chunks = (chunks.flatten, []) := by
  rcases h with rfl | rfl <;> rfl

/-- Witness for C6 at an absent header. -/
theorem c6_zero_length_single_write_witness :
    writeBody (totalSizeOf none) [[1, 2], [3]] = ([1, 2, 3], []) :=
  c6_zero_length_single_write none [[1, 2], [3]] (Or.inl rfl)

/-- C4: every exception raised inside `download_video` is caught by its
catch-all handler and converted to a boolean failure, so only a boolean
reaches `main`; the only exception reaching the entry point is the
construction-time missing-credential error, which `main` converts to exit
code 1, and the exit code is always 0 or 1. -/
theorem c4_error_containment :
    (∀ (env : Env) (url dir e : String) (t : List Eff),
      download_video_body env url dir = (.error e, t) →
      download_video env url dir = (false, t)) ∧
    (∀ (env : Env) (url dir : String), env.bearer_token = none →
      mainExit env url dir = 1) ∧
    (∀ (env : Env) (url dir : String),
      mainExit env url dir = 0 ∨ mainExit env url dir = 1) := by
  refine ⟨?_, ?_, ?_⟩
  · intro env url dir e t h
    simp [download_video, h]
  · intro env url dir h
    simp [mainExit, h]
  · intro env url dir
    cases hbt : env.bearer_token with
    | none => right; simp [mainExit, hbt]
    | some tok =>
      by_cases htok : tok = ""
      · right; simp [mainExit, hbt, htok]
      · by_cases hd : (download_video env url dir).1
        · left; simp [mainExit, hbt, htok, hd]
        · right; simp [mainExit, hbt, htok, hd]

/-- Witness for C4: an environment whose directory creation raises. -/
theorem c4_error_containment_witness :
    download_video
      ⟨some "tok", fun _ => Except.error "boom", fun _ => Except.error "api",
        fun _ => Except.error "net", fun _ => Except.error "fs", "ts"⟩
      "x.com/a/status/1" "downloads" = (false, []) :=
  c4_error_containment.1
    ⟨some "tok", fun _ => Except.error "boom", fun _ => Except.error "api",
      fun _ => Except.error "net", fun _ => Except.error "fs", "ts"⟩
    "x.com/a/status/1" "downloads" "boom" [] rfl

/-- C7: a URL yielding no identifier makes the program exit with status 1,
and no external effect — in particular no file write — is performed. -/
theorem c7_invalid_url_exit_one_no_file (env : Env) (url dir : String)
    (h : extract_tweet_id url = none) :
    mainExit env url dir = 1 ∧
      ∀ p bs, Eff.fileWrite p bs ∉ (download_video env url dir).2 := by
  have hb : download_video_body env url dir = (.ok false, []) := by
    simp [download_video_body, h]
  have hd : download_video env url dir = (false, []) := by
    simp [download_video, hb]
  constructor
  · cases hbt : env.bearer_token with
    | none => simp [mainExit, hbt]
    | some tok =>
      by_cases htok : tok = ""
      · simp [mainExit, hbt, htok]
      · simp [mainExit, hbt, htok, hd]
  · intro p bs hmem
    rw [hd] at hmem
    simp at hmem

/-- Witness for C7 at a non-matching URL. -/
theorem c7_invalid_url_exit_one_no_file_witness :
    mainExit
      ⟨some "tok", fun _ => Except.ok (), fun _ => Except.error "api",
        fun _ => Except.error "net", fun _ => Except.ok (), "ts"⟩
      "hello" "downloads" = 1 ∧
    ∀ p bs, Eff.fileWrite p bs ∉ (download_video
      ⟨some "tok", fun _ => Except.ok (), fun _ => Except.error "api",
        fun _ => Except.error "net", fun _ => Except.ok (), "ts"⟩
      "hello" "downloads").2 :=
  c7_invalid_url_exit_one_no_file
    ⟨some "tok", fun _ => Except.ok (), fun _ => Except.error "api",
      fun _ => Except.error "net", fun _ => Except.ok (), "ts"⟩
    "hello" "downloads" (by decide)

/-- C10: when an identifier is extracted and the directory creation
succeeds, the directory-creation effect happens first and the metadata
request second, whatever happens afterwards — so the directory exists even
when the metadata request or any later step fails. -/
theorem c10_mkdir_before_api (env : Env) (url dir id : String)
    (h1 : extract_tweet_id url = some id)
    (h3 : env.mkdir dir = .ok ()) :
    ∃ t, (download_video env url dir).2 =
      Eff.mkdirp dir :: Eff.apiGet id :: t := by
  have h2 : id ≠ "" := by
    obtain ⟨ds, rfl, hds, _⟩ := extract_tweet_id_some_digits h1
    intro hc
    exact hds (congrArg String.data hc)
  cases hapi : env.api id with
  | error e =>
    exact ⟨[], by simp [download_video, download_video_body, h1, h2, h3, hapi]⟩
  | ok td =>
    cases hsel : selectVideoUrl td with
    | error e =>
      cases e <;>
        exact ⟨[], by simp [download_video, download_video_body, h1, h2, h3,
          hapi, hsel]⟩
    | ok vurl =>
      cases hfetch : env.fetch vurl with
      | error e =>
        exact ⟨[Eff.httpGet vurl], by simp [download_video,
          download_video_body, h1, h2, h3, hapi, hsel, hfetch]⟩
      | ok pr =>
        obtain ⟨header, chunks⟩ := pr
        cases hopen : env.openFile
            (dir ++ "/twitter_video_" ++ id ++ "_" ++ env.now ++ ".mp4") with
        | error e =>
          exact ⟨[Eff.httpGet vurl], by simp [download_video,
            download_video_body, h1, h2, h3, hapi, hsel, hfetch, hopen]⟩
        | ok u =>
          exact ⟨[Eff.httpGet vurl,
            Eff.fileWrite (dir ++ "/twitter_video_" ++ id ++ "_" ++
              env.now ++ ".mp4") (writeBody (totalSizeOf header) chunks).1],
            by simp [download_video, download_video_body, h1, h2, h3, hapi,
              hsel, hfetch, hopen]⟩

/-- Witness for C10: the API request fails, the directory effect remains. -/
theorem c10_mkdir_before_api_witness :
    ∃ t, (download_video
      ⟨some "tok", fun _ => Except.ok (), fun _ => Except.error "api down",
        fun _ => Except.error "net", fun _ => Except.ok (), "ts"⟩
      "x.com/a/status/7" "dl").2 = Eff.mkdirp "dl" :: Eff.apiGet "7" :: t :=
  c10_mkdir_before_api
    ⟨some "tok", fun _ => Except.ok (), fun _ => Except.error "api down",
      fun _ => Except.error "net", fun _ => Except.ok (), "ts"⟩
    "x.com/a/status/7" "dl" "7" (by decide) rfl
